import Mathlib

/-!
# Verification of the `cil2cpp` instrumentation utility

The program under study is a source-code instrumentation tool
(`src/tools/instrument.py`): it inserts a diagnostic trace line into a
file's text, either right after the opening brace following a function
signature (`add_trace`) or at the start of the line containing a code
marker (`add_trace_before`).  File contents are modelled as `List Char`;
Python's `str.find` / `str.rfind` are modelled by the executable
functions `findSub`, `findFrom` and `rfindChar`; each instrumentation
function returns the new content together with the list of console lines
it printed and a flag recording whether it wrote the file.
-/

/-- First index `i` such that `sub` is a prefix of `s.drop i`
(Python `s.find(sub)`, with `none` for `-1`). -/
def findSub (sub : List Char) : List Char → Option Nat
  | [] => if sub.isPrefixOf [] then some 0 else none
  | c :: t =>
    if sub.isPrefixOf (c :: t) then some 0
    else (findSub sub t).map (fun n => n + 1)

/-- Python `s.find(sub, start)`: first index `i ≥ start` at which `sub`
occurs in `s` (`none` for `-1`). -/
def findFrom (sub s : List Char) (start : Nat) : Option Nat :=
  (findSub sub (s.drop start)).map (fun n => n + start)

/-- Last index of character `c` in `l` (used to model Python
`s.rfind(c, 0, stop)` as `rfindChar c (s.take stop)`). -/
def rfindChar (c : Char) : List Char → Option Nat
  | [] => none
  | a :: t =>
    match rfindChar c t with
    | some j => some (j + 1)
    | none => if a = c then some 0 else none

/-- Result of one instrumentation request: the (possibly new) file
content, the console lines printed, and whether the file was written. -/
structure TraceResult where
  content : List Char
  printed : List (List Char)
  wrote : Bool
deriving DecidableEq, Repr

/-- The trace line built by `add_trace`:
`'    fprintf(stderr, ">>> ' + label + '\\n");\n'` (the `\n` inside the
C string literal is the two characters backslash-`n`; the line ends with
a real newline). -/
def trace_line_after (label : List Char) : List Char :=
  "    fprintf(stderr, \">>> ".data ++ label ++ "\\n\");\n".data

/-- The trace line built by `add_trace_before` (same expression in the
source). -/
def trace_line_before (label : List Char) : List Char :=
  "    fprintf(stderr, \">>> ".data ++ label ++ "\\n\");\n".data

/-- Console warning of `add_trace`:
`f"  WARNING: '{func_sig[:60]}...' not found in {filename}"`. -/
def warnAfter (func_sig filename : List Char) : List Char :=
  "  WARNING: \x27".data ++ func_sig.take 60 ++ "...\x27 not found in ".data ++ filename

/-- Console success line of `add_trace`:
`f"  Instrumented {label} in {filename}"`. -/
def okAfter (label filename : List Char) : List Char :=
  "  Instrumented ".data ++ label ++ " in ".data ++ filename

/-- Console warning of `add_trace_before`. -/
def warnBefore (code_marker filename : List Char) : List Char :=
  "  WARNING before: \x27".data ++ code_marker.take 60 ++ "...\x27 not found in ".data ++ filename

/-- Console success line of `add_trace_before`. -/
def okBefore (label filename : List Char) : List Char :=
  "  Instrumented ".data ++ label ++ " (before) in ".data ++ filename

/-- Embedding of `add_trace(filename, func_sig, label)` acting on the
file content `content`: insert the trace line right after the first
newline following the first `'\x7b'` at or after the first occurrence of
`func_sig`. -/
def add_trace (filename func_sig label content : List Char) : TraceResult :=
  let trace_line := trace_line_after label
  if (findSub trace_line content).isSome then
    { content := content, printed := [], wrote := false }
  else
    match findSub func_sig content with
    | none =>
      { content := content, printed := [warnAfter func_sig filename], wrote := false }
    | some idx =>
      match findFrom ['\x7b'] content idx with
      | none => { content := content, printed := [], wrote := false }
      | some brace_idx =>
        match findFrom ['\n'] content brace_idx with
        | none => { content := content, printed := [], wrote := false }
        | some newline_idx =>
          { content :=
              content.take (newline_idx + 1) ++ trace_line ++ content.drop (newline_idx + 1),
            printed := [okAfter label filename],
            wrote := true }

/-- Embedding of `add_trace_before(filename, code_marker, label)`:
insert the trace line at the start of the line containing the first
occurrence of `code_marker`. -/
def add_trace_before (filename code_marker label content : List Char) : TraceResult :=
  let trace_line := trace_line_before label
  if (findSub trace_line content).isSome then
    { content := content, printed := [], wrote := false }
  else
    match findSub code_marker content with
    | none =>
      { content := content, printed := [warnBefore code_marker filename], wrote := false }
    | some idx =>
      let line_start :=
        match rfindChar '\n' (content.take idx) with
        | none => 0
        | some j => j + 1
      { content := content.take line_start ++ trace_line ++ content.drop line_start,
        printed := [okBefore label filename],
        wrote := true }

/-- The two locate strategies of the engine. -/
inductive Mode
  | afterSignatureBrace
  | beforeLine
deriving DecidableEq, Repr

/-- An instrumentation request, as in the spec's data model. -/
structure Request where
  target_path : List Char
  locate_key : List Char
  label : List Char
  mode : Mode
deriving DecidableEq, Repr

/-- Dispatch a request to its strategy (the per-request body of `main`'s
loops). -/
def applyReq (R : Request) (C : List Char) : TraceResult :=
  match R.mode with
  | Mode.afterSignatureBrace => add_trace R.target_path R.locate_key R.label C
  | Mode.beforeLine => add_trace_before R.target_path R.locate_key R.label C

/-- The trace statement a request would insert (identical for the two
modes, see claim C9). -/
def traceOf (R : Request) : List Char :=
  match R.mode with
  | Mode.afterSignatureBrace => trace_line_after R.label
  | Mode.beforeLine => trace_line_before R.label

/-- The success line a request would print. -/
def okMsgOf (R : Request) : List Char :=
  match R.mode with
  | Mode.afterSignatureBrace => okAfter R.label R.target_path
  | Mode.beforeLine => okBefore R.label R.target_path

/-- The warning line a request would print. -/
def warnMsgOf (R : Request) : List Char :=
  match R.mode with
  | Mode.afterSignatureBrace => warnAfter R.locate_key R.target_path
  | Mode.beforeLine => warnBefore R.locate_key R.target_path

/-- Number of positions (up to and including `s.length`) at which `sub`
occurs as a substring of `s`. -/
def occCount (sub : List Char) : List Char → Nat
  | [] => if sub.isPrefixOf [] then 1 else 0
  | c :: t => (if sub.isPrefixOf (c :: t) then 1 else 0) + occCount sub t

/-- The spec's first example content: `"int f() {\nreturn 1;\n}\n"`. -/
def exampleC : List Char := "int f() \x7b\nreturn 1;\n\x7d\n".data

/-- A request matching the spec's first example. -/
def exampleReq : Request :=
  ⟨"HttpTest_methods_7.cpp".data, "int f()".data, ['X'], Mode.afterSignatureBrace⟩

/-- The spec's third example content: `"a();\nb();\n"`. -/
def exampleC2 : List Char := "a();\nb();\n".data

/-! ## Characterisations of the string-search primitives -/

theorem isPrefixOf_iff {sub l : List Char} : sub.isPrefixOf l = true ↔ sub <+: l :=
  List.isPrefixOf_iff_prefix

theorem findSub_nil (sub : List Char) :
    findSub sub [] = if sub.isPrefixOf [] then some 0 else none := rfl

theorem findSub_cons (sub : List Char) (c : Char) (t : List Char) :
    findSub sub (c :: t) =
      if sub.isPrefixOf (c :: t) then some 0
      else (findSub sub t).map (fun n => n + 1) := rfl

theorem findSub_eq_none_iff {sub s : List Char} :
    findSub sub s = none ↔ ∀ i, ¬ sub <+: s.drop i := by
  induction s with
  | nil =>
    by_cases hp : sub.isPrefixOf ([] : List Char)
    · rw [findSub_nil, if_pos hp]
      constructor
      · intro h; cases h
      · intro h; exact absurd (isPrefixOf_iff.mp hp) (by simpa using h 0)
    · rw [findSub_nil, if_neg hp]
      constructor
      · intro _ i
        rw [List.drop_nil]
        exact fun hpre => hp (isPrefixOf_iff.mpr hpre)
      · intro _; rfl
  | cons c t ih =>
    by_cases hp : sub.isPrefixOf (c :: t)
    · rw [findSub_cons, if_pos hp]
      constructor
      · intro h; cases h
      · intro h; exact absurd (isPrefixOf_iff.mp hp) (by simpa using h 0)
    · rw [findSub_cons, if_neg hp, Option.map_eq_none', ih]
      constructor
      · intro h i
        cases i with
        | zero =>
          intro hpre
          exact hp (isPrefixOf_iff.mpr (by simpa using hpre))
        | succ j => simpa using h j
      · intro h j
        simpa using h (j + 1)

theorem findSub_eq_some_iff {sub s : List Char} {i : Nat} :
    findSub sub s = some i ↔
      (sub <+: s.drop i ∧ ∀ j < i, ¬ sub <+: s.drop j) := by
  induction s generalizing i with
  | nil =>
    by_cases hp : sub.isPrefixOf ([] : List Char)
    · rw [findSub_nil, if_pos hp]
      constructor
      · intro h
        obtain rfl : i = 0 := (Option.some.inj h).symm
        exact ⟨by simpa using isPrefixOf_iff.mp hp, fun j hj => absurd hj (by omega)⟩
      · rintro ⟨-, h2⟩
        rcases Nat.eq_zero_or_pos i with rfl | hpos
        · rfl
        · exact absurd (by simpa using isPrefixOf_iff.mp hp) (by simpa using h2 0 hpos)
    · rw [findSub_nil, if_neg hp]
      constructor
      · intro h; cases h
      · rintro ⟨h1, -⟩
        rw [List.drop_nil] at h1
        exact absurd (isPrefixOf_iff.mpr h1) hp
  | cons c t ih =>
    by_cases hp : sub.isPrefixOf (c :: t)
    · rw [findSub_cons, if_pos hp]
      constructor
      · intro h
        obtain rfl : i = 0 := (Option.some.inj h).symm
        exact ⟨by simpa using isPrefixOf_iff.mp hp, fun j hj => absurd hj (by omega)⟩
      · rintro ⟨-, h2⟩
        rcases Nat.eq_zero_or_pos i with rfl | hpos
        · rfl
        · exact absurd (by simpa using isPrefixOf_iff.mp hp) (by simpa using h2 0 hpos)
    · rw [findSub_cons, if_neg hp, Option.map_eq_some']
      constructor
      · rintro ⟨m, hm, rfl⟩
        obtain ⟨hm1, hm2⟩ := ih.mp hm
        refine ⟨by simpa using hm1, ?_⟩
        intro j hj
        cases j with
        | zero =>
          intro hpre
          exact hp (isPrefixOf_iff.mpr (by simpa using hpre))
        | succ k =>
          simpa using hm2 k (by omega)
      · rintro ⟨h1, h2⟩
        cases i with
        | zero =>
          exact absurd (isPrefixOf_iff.mpr (by simpa using h1)) hp
        | succ m =>
          refine ⟨m, ih.mpr ⟨by simpa using h1, ?_⟩, rfl⟩
          intro k hk
          simpa using h2 (k + 1) (by omega)

theorem findSub_isSome_of_append (sub A B : List Char) :
    (findSub sub (A ++ (sub ++ B))).isSome = true := by
  cases h : findSub sub (A ++ (sub ++ B)) with
  | some m => rfl
  | none =>
    exfalso
    apply findSub_eq_none_iff.mp h A.length
    rw [List.drop_left]
    exact List.prefix_append _ _

theorem findSub_le_length {sub s : List Char} {i : Nat}
    (h : findSub sub s = some i) : i ≤ s.length := by
  induction s generalizing i with
  | nil =>
    rw [findSub_nil] at h
    split at h
    · exact le_of_eq (Option.some.inj h).symm
    · cases h
  | cons c t ih =>
    rw [findSub_cons] at h
    split at h
    · simp [(Option.some.inj h).symm]
    · rw [Option.map_eq_some'] at h
      obtain ⟨m, hm, rfl⟩ := h
      simpa using ih hm

theorem singleton_prefix_iff {c : Char} {l : List Char} :
    [c] <+: l ↔ l[0]? = some c := by
  cases l with
  | nil => simp
  | cons a t =>
    rw [List.cons_prefix_cons]
    simp [eq_comm]

theorem singleton_prefix_drop_iff {c : Char} {s : List Char} {q : Nat} :
    [c] <+: s.drop q ↔ s[q]? = some c := by
  rw [singleton_prefix_iff, List.getElem?_drop, Nat.add_zero]

theorem prefix_drop_iff_getElem {sub s : List Char} {q : Nat} :
    sub <+: s.drop q ↔ ∀ k < sub.length, s[q + k]? = sub[k]? := by
  constructor
  · intro h k hk
    obtain ⟨t, ht⟩ := h
    have : (s.drop q)[k]? = sub[k]? := by
      rw [← ht, List.getElem?_append_left hk]
    rw [← List.getElem?_drop]
    exact this
  · intro h
    rcases Nat.eq_zero_or_pos sub.length with hlen0 | hnpos
    · rw [List.eq_nil_of_length_eq_zero hlen0]
      exact List.nil_prefix
    · have hlast : s[q + (sub.length - 1)]? = sub[sub.length - 1]? :=
        h _ (by omega)
      have hsub : sub[sub.length - 1]?.isSome = true := by
        rw [List.getElem?_eq_getElem (show sub.length - 1 < sub.length by omega)]
        rfl
      have hlen : q + sub.length ≤ s.length := by
        by_contra hcon
        have hnone : s[q + (sub.length - 1)]? = none :=
          List.getElem?_eq_none (by omega)
        rw [hnone] at hlast
        rw [← hlast] at hsub
        simp at hsub
      rw [List.prefix_iff_eq_take]
      apply List.ext_getElem?
      intro k
      by_cases hk : k < sub.length
      · rw [List.getElem?_take]
        simp only [hk, if_true]
        rw [List.getElem?_drop, h k hk]
      · have h1 : sub[k]? = none := by
          rw [List.getElem?_eq_none]; omega
        have h2 : ((s.drop q).take sub.length)[k]? = none := by
          rw [List.getElem?_eq_none]
          simp only [List.length_take]
          omega
        rw [h1, h2]

theorem findFrom_char_eq_some_iff {c : Char} {s : List Char} {start b : Nat} :
    findFrom [c] s start = some b ↔
      (start ≤ b ∧ s[b]? = some c ∧ ∀ j < b, start ≤ j → s[j]? ≠ some c) := by
  unfold findFrom
  rw [Option.map_eq_some']
  constructor
  · rintro ⟨m, hm, rfl⟩
    obtain ⟨h1, h2⟩ := findSub_eq_some_iff.mp hm
    rw [List.drop_drop, singleton_prefix_drop_iff] at h1
    refine ⟨by omega, ?_, ?_⟩
    · have e : start + m = m + start := by omega
      rw [← e]
      exact h1
    · intro j hj hsj
      have hmin := h2 (j - start) (by omega)
      rw [List.drop_drop, singleton_prefix_drop_iff] at hmin
      have e : start + (j - start) = j := by omega
      rw [e] at hmin
      exact hmin
  · rintro ⟨h0, h1, h2⟩
    refine ⟨b - start, findSub_eq_some_iff.mpr ⟨?_, ?_⟩, by omega⟩
    · rw [List.drop_drop, singleton_prefix_drop_iff]
      have e : start + (b - start) = b := by omega
      rw [e]
      exact h1
    · intro j hj
      rw [List.drop_drop, singleton_prefix_drop_iff]
      exact h2 (start + j) (by omega) (by omega)

theorem findFrom_char_eq_none_iff {c : Char} {s : List Char} {start : Nat} :
    findFrom [c] s start = none ↔ ∀ j, start ≤ j → s[j]? ≠ some c := by
  unfold findFrom
  rw [Option.map_eq_none', findSub_eq_none_iff]
  constructor
  · intro h j hj hc
    apply h (j - start)
    rw [List.drop_drop, singleton_prefix_drop_iff]
    have e : start + (j - start) = j := by omega
    rw [e]
    exact hc
  · intro h i
    rw [List.drop_drop, singleton_prefix_drop_iff]
    exact h (start + i) (by omega)

theorem rfindChar_eq_none_iff {c : Char} {l : List Char} :
    rfindChar c l = none ↔ ∀ k < l.length, l[k]? ≠ some c := by
  induction l with
  | nil => simp [rfindChar]
  | cons a t ih =>
    unfold rfindChar
    cases hr : rfindChar c t with
    | some m =>
      simp only
      constructor
      · intro h; cases h
      · intro h
        exfalso
        obtain ⟨m', hm⟩ : ∃ m', rfindChar c t = some m' := ⟨m, hr⟩
        have hne : rfindChar c t ≠ none := by simp [hm]
        rw [Ne, ih] at hne
        push_neg at hne
        obtain ⟨k, hk, hck⟩ := hne
        exact h (k + 1) (by simpa using Nat.succ_lt_succ hk) (by simpa using hck)
    | none =>
      simp only
      by_cases hac : a = c
      · rw [if_pos hac]
        constructor
        · intro h; cases h
        · intro h
          exact absurd (by simp [hac]) (h 0 (by simp))
      · rw [if_neg hac]
        constructor
        · intro _ k hk
          cases k with
          | zero =>
            simp only [List.getElem?_cons_zero]
            intro h
            exact hac (Option.some.inj h)
          | succ j =>
            simp only [List.getElem?_cons_succ]
            exact ih.mp hr j (by simpa using hk)
        · intro _; rfl

theorem rfindChar_eq_some_iff {c : Char} {l : List Char} {j : Nat} :
    rfindChar c l = some j ↔
      (l[j]? = some c ∧ ∀ k < l.length, j < k → l[k]? ≠ some c) := by
  induction l generalizing j with
  | nil => simp [rfindChar]
  | cons a t ih =>
    unfold rfindChar
    cases hr : rfindChar c t with
    | some m =>
      simp only
      obtain ⟨hm1, hm2⟩ := ih.mp hr
      constructor
      · intro h
        obtain rfl : j = m + 1 := (Option.some.inj h).symm
        refine ⟨by simpa using hm1, ?_⟩
        intro k hk hmk
        cases k with
        | zero => omega
        | succ k' =>
          simp only [List.getElem?_cons_succ]
          exact hm2 k' (by simpa using hk) (by omega)
      · rintro ⟨h1, h2⟩
        cases j with
        | zero =>
          exfalso
          have hmlen : m < t.length := (List.getElem?_eq_some.mp hm1).1
          exact h2 (m + 1) (by simpa using Nat.succ_lt_succ hmlen) (by omega)
            (by simpa using hm1)
        | succ j' =>
          have hj' : rfindChar c t = some j' := by
            apply ih.mpr
            refine ⟨by simpa using h1, ?_⟩
            intro k hk hjk
            have := h2 (k + 1) (by simpa using Nat.succ_lt_succ hk) (by omega)
            simpa using this
          rw [hr] at hj'
          obtain rfl : m = j' := Option.some.inj hj'
          rfl
    | none =>
      simp only
      have htnone := rfindChar_eq_none_iff.mp hr
      by_cases hac : a = c
      · rw [if_pos hac]
        constructor
        · intro h
          obtain rfl : j = 0 := (Option.some.inj h).symm
          refine ⟨by simp [hac], ?_⟩
          intro k hk hk0
          cases k with
          | zero => omega
          | succ k' =>
            simp only [List.getElem?_cons_succ]
            exact htnone k' (by simpa using hk)
        · rintro ⟨h1, h2⟩
          cases j with
          | zero => rfl
          | succ j' =>
            exfalso
            have hjlen : j' < t.length := by
              have := (List.getElem?_eq_some.mp h1).1
              simpa using this
            exact htnone j' hjlen (by simpa using h1)
      · rw [if_neg hac]
        constructor
        · intro h; cases h
        · rintro ⟨h1, h2⟩
          exfalso
          cases j with
          | zero =>
            have hax : a = c := by simpa using h1
            exact hac hax
          | succ j' =>
            have hjlen : j' < t.length := by
              have := (List.getElem?_eq_some.mp h1).1
              simpa using this
            exact htnone j' hjlen (by simpa using h1)

/-! ## Structural lemmas about the two strategies -/

theorem findSub_eq_none_of_bounded {sub s : List Char}
    (h : ∀ i < s.length + 1, ¬ sub <+: s.drop i) : findSub sub s = none := by
  rw [findSub_eq_none_iff]
  intro i
  by_cases hi : i < s.length + 1
  · exact h i hi
  · have hd : s.drop i = s.drop s.length := by
      rw [List.drop_eq_nil_of_le (by omega), List.drop_eq_nil_of_le (le_refl _)]
    rw [hd]
    exact h s.length (by omega)

theorem findSub_isSome_of_prefix_drop {sub s : List Char} {i : Nat}
    (h : sub <+: s.drop i) : (findSub sub s).isSome = true := by
  cases hf : findSub sub s with
  | some m => rfl
  | none => exact absurd h (findSub_eq_none_iff.mp hf i)

theorem add_trace_of_contains {f k l C : List Char}
    (h : (findSub (trace_line_after l) C).isSome = true) :
    add_trace f k l C = ⟨C, [], false⟩ := by
  simp [add_trace, h]

theorem add_trace_before_of_contains {f k l C : List Char}
    (h : (findSub (trace_line_before l) C).isSome = true) :
    add_trace_before f k l C = ⟨C, [], false⟩ := by
  simp [add_trace_before, h]

theorem add_trace_cases (f k l C : List Char) :
    ((add_trace f k l C).content = C ∧ (add_trace f k l C).wrote = false) ∨
    (∃ p, p ≤ C.length ∧
      add_trace f k l C =
        ⟨C.take p ++ trace_line_after l ++ C.drop p, [okAfter l f], true⟩) := by
  simp only [add_trace]
  split
  · exact Or.inl ⟨rfl, rfl⟩
  · split
    · exact Or.inl ⟨rfl, rfl⟩
    · split
      · exact Or.inl ⟨rfl, rfl⟩
      · split
        · exact Or.inl ⟨rfl, rfl⟩
        · rename_i n h3
          refine Or.inr ⟨n + 1, ?_, rfl⟩
          obtain ⟨-, hn, -⟩ := findFrom_char_eq_some_iff.mp h3
          have hlt : n < C.length := (List.getElem?_eq_some.mp hn).1
          omega

theorem add_trace_before_cases (f k l C : List Char) :
    ((add_trace_before f k l C).content = C ∧ (add_trace_before f k l C).wrote = false) ∨
    (∃ p, p ≤ C.length ∧
      add_trace_before f k l C =
        ⟨C.take p ++ trace_line_before l ++ C.drop p, [okBefore l f], true⟩) := by
  simp only [add_trace_before]
  split
  · exact Or.inl ⟨rfl, rfl⟩
  · split
    · exact Or.inl ⟨rfl, rfl⟩
    · rename_i i h1
      cases h2 : rfindChar '\n' (C.take i) with
      | none => exact Or.inr ⟨0, by omega, rfl⟩
      | some j =>
        refine Or.inr ⟨j + 1, ?_, rfl⟩
        obtain ⟨hj, -⟩ := rfindChar_eq_some_iff.mp h2
        have hjlt : j < (C.take i).length := (List.getElem?_eq_some.mp hj).1
        rw [List.length_take] at hjlt
        omega

theorem applyReq_of_contains {R : Request} {C : List Char}
    (h : (findSub (traceOf R) C).isSome = true) :
    applyReq R C = ⟨C, [], false⟩ := by
  cases R with
  | mk path key label mode =>
    cases mode with
    | afterSignatureBrace =>
      exact add_trace_of_contains (by simpa [traceOf] using h)
    | beforeLine =>
      exact add_trace_before_of_contains (by simpa [traceOf] using h)

theorem applyReq_cases (R : Request) (C : List Char) :
    ((applyReq R C).content = C ∧ (applyReq R C).wrote = false) ∨
    (∃ p, p ≤ C.length ∧
      (applyReq R C).content = C.take p ++ traceOf R ++ C.drop p ∧
      (applyReq R C).wrote = true) := by
  cases R with
  | mk path key label mode =>
    cases mode with
    | afterSignatureBrace =>
      rcases add_trace_cases path key label C with ⟨h1, h2⟩ | ⟨p, hp, he⟩
      · exact Or.inl ⟨h1, h2⟩
      · refine Or.inr ⟨p, hp, ?_, ?_⟩ <;> simp [applyReq, traceOf, he]
    | beforeLine =>
      rcases add_trace_before_cases path key label C with ⟨h1, h2⟩ | ⟨p, hp, he⟩
      · exact Or.inl ⟨h1, h2⟩
      · refine Or.inr ⟨p, hp, ?_, ?_⟩ <;> simp [applyReq, traceOf, he]

theorem trace_line_after_count_newline {label : List Char} (h : '\n' ∉ label) :
    (trace_line_after label).count '\n' = 1 := by
  unfold trace_line_after
  rw [List.count_append, List.count_append]
  have h1 : ("    fprintf(stderr, \">>> ".data).count '\n' = 0 := by decide
  have h2 : label.count '\n' = 0 := List.count_eq_zero.mpr h
  have h3 : ("\\n\");\n".data).count '\n' = 1 := by decide
  rw [h1, h2, h3]

theorem traceOf_count_newline {R : Request} (h : '\n' ∉ R.label) :
    (traceOf R).count '\n' = 1 := by
  cases hm : R.mode <;> simp only [traceOf, hm] <;>
    exact trace_line_after_count_newline h

/-! ## The claims -/

/-- C1: for every instrumentation request `R` (either mode) and every file
content `C`, applying `R` twice in sequence yields the same content as
applying it once: `apply(R, apply(R, C)) == apply(R, C)`. -/
theorem C1_apply_idempotent (R : Request) (C : List Char) :
    (applyReq R ((applyReq R C).content)).content = (applyReq R C).content := by
  rcases applyReq_cases R C with ⟨h1, -⟩ | ⟨p, -, hc, -⟩
  · rw [h1]
    exact h1
  · rw [hc]
    have hsome : (findSub (traceOf R)
        (C.take p ++ traceOf R ++ C.drop p)).isSome = true := by
      rw [List.append_assoc]
      exact findSub_isSome_of_append _ _ _
    rw [applyReq_of_contains hsome]

/-- C2: for every content `C` in which the locate key does not occur (and
whose exact trace statement is not already present), applying the request
in either mode leaves the content byte-for-byte equal to `C` and performs
no file write. -/
theorem C2_noop_on_absent_key (R : Request) (C : List Char)
    (hkey : ∀ i < C.length + 1, ¬ R.locate_key <+: C.drop i)
    (htr : ∀ i < C.length + 1, ¬ traceOf R <+: C.drop i) :
    (applyReq R C).content = C ∧ (applyReq R C).wrote = false := by
  cases R with
  | mk path key label mode =>
    cases mode with
    | afterSignatureBrace =>
      have hf : findSub (trace_line_after label) C = none :=
        findSub_eq_none_of_bounded (by simpa [traceOf] using htr)
      have hk : findSub key C = none :=
        findSub_eq_none_of_bounded (by simpa using hkey)
      constructor <;> simp [applyReq, add_trace, hf, hk]
    | beforeLine =>
      have hf : findSub (trace_line_before label) C = none :=
        findSub_eq_none_of_bounded (by simpa [traceOf] using htr)
      have hk : findSub key C = none :=
        findSub_eq_none_of_bounded (by simpa using hkey)
      constructor <;> simp [applyReq, add_trace_before, hf, hk]

theorem C2_noop_on_absent_key_witness :
    (∀ i < ("abc".data).length + 1, ¬ "zzz".data <+: ("abc".data).drop i) ∧
    ((applyReq ⟨"f.cpp".data, "zzz".data, ['X'], Mode.afterSignatureBrace⟩
        "abc".data).content = "abc".data ∧
      (applyReq ⟨"f.cpp".data, "zzz".data, ['X'], Mode.afterSignatureBrace⟩
        "abc".data).wrote = false) :=
  ⟨by decide, C2_noop_on_absent_key _ _ (by decide) (by decide)⟩

/-- C5: whenever an insertion occurs (either mode), the result equals
`C[:p] + T + C[p:]` for a single insertion point `p` and the one trace
line `T`: the result contains exactly one more line than `C` (counting
newline characters; the label is newline-free), and all content before
and after the insertion point is unchanged and contiguous. -/
theorem C5_single_insertion (R : Request) (C : List Char)
    (hw : (applyReq R C).wrote = true) (hlab : '\n' ∉ R.label) :
    ∃ p, p ≤ C.length ∧
      (applyReq R C).content = C.take p ++ traceOf R ++ C.drop p ∧
      (applyReq R C).content.count '\n' = C.count '\n' + 1 := by
  rcases applyReq_cases R C with ⟨-, h2⟩ | ⟨p, hp, hc, -⟩
  · rw [h2] at hw; cases hw
  · refine ⟨p, hp, hc, ?_⟩
    rw [hc]
    have htc : (traceOf R).count '\n' = 1 := traceOf_count_newline hlab
    rw [List.count_append, List.count_append, htc]
    conv_rhs => rw [← List.take_append_drop p C, List.count_append]
    omega

theorem C5_single_insertion_witness :
    (applyReq exampleReq exampleC).wrote = true ∧
    ∃ p, p ≤ exampleC.length ∧
      (applyReq exampleReq exampleC).content =
        exampleC.take p ++ traceOf exampleReq ++ exampleC.drop p ∧
      (applyReq exampleReq exampleC).content.count '\n' = exampleC.count '\n' + 1 :=
  ⟨by decide, C5_single_insertion _ _ (by decide) (by decide)⟩

/-- C8: if the exact trace statement text for the label is already a
substring of the content, the operation in either mode stops immediately
as a no-op: the content is unchanged, no write occurs, and no diagnostic
is emitted — even when the locate key is absent from the content. -/
theorem C8_already_present_noop (R : Request) (C : List Char)
    (h : ∃ i < C.length + 1, traceOf R <+: C.drop i) :
    applyReq R C = ⟨C, [], false⟩ := by
  obtain ⟨i, -, hp⟩ := h
  exact applyReq_of_contains (findSub_isSome_of_prefix_drop hp)

theorem C8_already_present_noop_witness :
    (∃ i < (trace_line_before ['X']).length + 1,
        traceOf ⟨"f.cpp".data, "zzz".data, ['X'], Mode.beforeLine⟩
          <+: (trace_line_before ['X']).drop i) ∧
    (∀ i < (trace_line_before ['X']).length + 1,
        ¬ "zzz".data <+: (trace_line_before ['X']).drop i) ∧
    applyReq ⟨"f.cpp".data, "zzz".data, ['X'], Mode.beforeLine⟩
        (trace_line_before ['X'])
      = ⟨trace_line_before ['X'], [], false⟩ :=
  ⟨by decide, by decide, C8_already_present_noop _ _ (by decide)⟩

/-- C9: for every label, `add_trace` and `add_trace_before` construct
byte-identical trace statements (four spaces, then
`fprintf(stderr, ">>> ` + label + `\n");`, then a newline); consequently,
after either mode has inserted the trace for a label into a content,
applying the other mode with the same label to that content is a no-op. -/
theorem C9_modes_equivalent (label f1 f2 f3 f4 k1 k2 k3 k4 C C' : List Char)
    (h1 : (add_trace f1 k1 label C).wrote = true)
    (h2 : (add_trace_before f3 k3 label C').wrote = true) :
    trace_line_after label = trace_line_before label ∧
    trace_line_after label =
      "    fprintf(stderr, \">>> ".data ++ label ++ "\\n\");\n".data ∧
    add_trace_before f2 k2 label ((add_trace f1 k1 label C).content) =
      ⟨(add_trace f1 k1 label C).content, [], false⟩ ∧
    add_trace f4 k4 label ((add_trace_before f3 k3 label C').content) =
      ⟨(add_trace_before f3 k3 label C').content, [], false⟩ := by
  refine ⟨rfl, rfl, ?_, ?_⟩
  · rcases add_trace_cases f1 k1 label C with ⟨-, hw⟩ | ⟨p, -, he⟩
    · rw [hw] at h1; cases h1
    · rw [he]
      apply add_trace_before_of_contains
      show (findSub (trace_line_before label)
        (C.take p ++ trace_line_after label ++ C.drop p)).isSome = true
      have heq : trace_line_before label = trace_line_after label := rfl
      rw [heq, List.append_assoc]
      exact findSub_isSome_of_append _ _ _
  · rcases add_trace_before_cases f3 k3 label C' with ⟨-, hw⟩ | ⟨p, -, he⟩
    · rw [hw] at h2; cases h2
    · rw [he]
      apply add_trace_of_contains
      show (findSub (trace_line_after label)
        (C'.take p ++ trace_line_before label ++ C'.drop p)).isSome = true
      have heq : trace_line_after label = trace_line_before label := rfl
      rw [heq, List.append_assoc]
      exact findSub_isSome_of_append _ _ _

/-- C3: in AfterSignatureBrace mode, when the trace statement is not
already present and the locate key occurs (first occurrence at `i`), with
the first brace at or after `i` at position `b` and the first newline at
or after `b` at position `n`, the trace statement is inserted immediately
after that newline, becoming the first line of the block's body; only the
first occurrence of the locate key governs the insertion point. -/
theorem C3_after_brace_insertion (fn key label C : List Char) (i b n : Nat)
    (htr : ∀ q < C.length + 1, ¬ trace_line_after label <+: C.drop q)
    (hkey : key <+: C.drop i)
    (hkeymin : ∀ j < i, ¬ key <+: C.drop j)
    (hb : C[b]? = some '\x7b') (hib : i ≤ b)
    (hbmin : ∀ j < b, i ≤ j → C[j]? ≠ some '\x7b')
    (hn : C[n]? = some '\n') (hbn : b ≤ n)
    (hnmin : ∀ j < n, b ≤ j → C[j]? ≠ some '\n') :
    add_trace fn key label C =
      ⟨C.take (n + 1) ++ trace_line_after label ++ C.drop (n + 1),
        [okAfter label fn], true⟩ := by
  have hf : findSub (trace_line_after label) C = none := findSub_eq_none_of_bounded htr
  have hk : findSub key C = some i := findSub_eq_some_iff.mpr ⟨hkey, hkeymin⟩
  have hbf : findFrom ['\x7b'] C i = some b :=
    findFrom_char_eq_some_iff.mpr ⟨hib, hb, hbmin⟩
  have hnf : findFrom ['\n'] C b = some n :=
    findFrom_char_eq_some_iff.mpr ⟨hbn, hn, hnmin⟩
  simp [add_trace, hf, hk, hbf, hnf]

theorem C3_after_brace_insertion_witness :
    ("int f()".data <+: exampleC.drop 0) ∧
    add_trace "f".data "int f()".data ['X'] exampleC =
      ⟨exampleC.take 10 ++ trace_line_after ['X'] ++ exampleC.drop 10,
        [okAfter ['X'] "f".data], true⟩ :=
  ⟨by decide,
    C3_after_brace_insertion "f".data "int f()".data ['X'] exampleC 0 8 9
      (by decide) (by decide) (by decide) (by decide) (by decide) (by decide)
      (by decide) (by decide) (by decide)⟩

/-- C4: in BeforeLine mode, when the trace statement is not already
present and the marker occurs (first occurrence at `i`), the trace
statement is inserted at the start of the line containing the match: the
position right after the nearest newline preceding `i`, or position `0`
when no newline precedes it. -/
theorem C4_before_line_insertion (fn marker label C : List Char) (i p : Nat)
    (htr : ∀ q < C.length + 1, ¬ trace_line_before label <+: C.drop q)
    (hkey : marker <+: C.drop i)
    (hkeymin : ∀ j < i, ¬ marker <+: C.drop j)
    (hp : (p = 0 ∧ ∀ j < i, C[j]? ≠ some '\n') ∨
      (0 < p ∧ p ≤ i ∧ C[p - 1]? = some '\n' ∧ ∀ j < i, p ≤ j → C[j]? ≠ some '\n')) :
    add_trace_before fn marker label C =
      ⟨C.take p ++ trace_line_before label ++ C.drop p,
        [okBefore label fn], true⟩ := by
  have hf : findSub (trace_line_before label) C = none := findSub_eq_none_of_bounded htr
  have hk : findSub marker C = some i := findSub_eq_some_iff.mpr ⟨hkey, hkeymin⟩
  rcases hp with ⟨rfl, hnone⟩ | ⟨hp0, hpi, hpn, hmin⟩
  · have hr : rfindChar '\n' (C.take i) = none := by
      rw [rfindChar_eq_none_iff]
      intro k hk2
      rw [List.length_take] at hk2
      rw [List.getElem?_take, if_pos (by omega)]
      exact hnone k (by omega)
    simp [add_trace_before, hf, hk, hr]
  · have hr : rfindChar '\n' (C.take i) = some (p - 1) := by
      rw [rfindChar_eq_some_iff]
      constructor
      · rw [List.getElem?_take, if_pos (by omega)]
        exact hpn
      · intro k hk2 hgt
        rw [List.length_take] at hk2
        rw [List.getElem?_take, if_pos (by omega)]
        exact hmin k (by omega) (by omega)
    have e : p - 1 + 1 = p := by omega
    simp [add_trace_before, hf, hk, hr, e]

theorem C4_before_line_insertion_witness :
    ("b();".data <+: exampleC2.drop 5) ∧
    add_trace_before "f".data "b();".data ['Y'] exampleC2 =
      ⟨exampleC2.take 5 ++ trace_line_before ['Y'] ++ exampleC2.drop 5,
        [okBefore ['Y'] "f".data], true⟩ :=
  ⟨by decide,
    C4_before_line_insertion "f".data "b();".data ['Y'] exampleC2 5 5
      (by decide) (by decide) (by decide) (by decide)⟩

/-- C10: in AfterSignatureBrace mode, the forward scan for the opening
brace starts at the first character of the locate-key match, not at its
end; for a locate key of shape `k1 ++ brace :: k2` with no brace in `k1`,
the brace found is the one inside the matched key text (offset
`k1.length` into the match, strictly inside the key). -/
theorem C10_brace_scan_from_match_start (C key k1 k2 : List Char) (i : Nat)
    (hkey : key = k1 ++ '\x7b' :: k2)
    (hk1 : '\x7b' ∉ k1)
    (hfind : findSub key C = some i) :
    findFrom ['\x7b'] C i = some (i + k1.length) ∧ k1.length < key.length := by
  subst hkey
  obtain ⟨hpre, -⟩ := findSub_eq_some_iff.mp hfind
  rw [prefix_drop_iff_getElem] at hpre
  refine ⟨?_, by simp only [List.length_append, List.length_cons]; omega⟩
  rw [findFrom_char_eq_some_iff]
  refine ⟨by omega, ?_, ?_⟩
  · have hx := hpre k1.length
      (by simp only [List.length_append, List.length_cons]; omega)
    rw [hx, List.getElem?_append_right (le_refl _)]
    simp
  · intro j hj hij
    have hx := hpre (j - i)
      (by simp only [List.length_append, List.length_cons]; omega)
    have e : i + (j - i) = j := by omega
    rw [e] at hx
    rw [hx, List.getElem?_append_left (by omega)]
    intro hcon
    exact hk1 (List.getElem?_mem hcon)

theorem C10_brace_scan_from_match_start_witness :
    (findSub "b \x7bq".data "ab \x7bq\n".data = some 1) ∧
    (findFrom ['\x7b'] "ab \x7bq\n".data 1 = some (1 + ("b ".data).length) ∧
      ("b ".data).length < ("b \x7bq".data).length) :=
  ⟨by decide,
    C10_brace_scan_from_match_start "ab \x7bq\n".data "b \x7bq".data
      "b ".data "q".data 1 (by decide) (by decide) (by decide)⟩

theorem C9_modes_equivalent_witness :
    ((add_trace "f".data "int f()".data ['X'] exampleC).wrote = true) ∧
    ((add_trace_before "g".data "return".data ['X'] exampleC).wrote = true) ∧
    (trace_line_after ['X'] = trace_line_before ['X'] ∧
      trace_line_after ['X'] =
        "    fprintf(stderr, \">>> ".data ++ ['X'] ++ "\\n\");\n".data ∧
      add_trace_before "g".data "return".data ['X']
          ((add_trace "f".data "int f()".data ['X'] exampleC).content) =
        ⟨(add_trace "f".data "int f()".data ['X'] exampleC).content, [], false⟩ ∧
      add_trace "f".data "int f()".data ['X']
          ((add_trace_before "g".data "return".data ['X'] exampleC).content) =
        ⟨(add_trace_before "g".data "return".data ['X'] exampleC).content, [], false⟩) :=
  ⟨by decide, by decide,
    C9_modes_equivalent ['X'] "f".data "g".data "g".data "f".data
      "int f()".data "return".data "return".data "int f()".data
      exampleC exampleC (by decide) (by decide)⟩

/-! ## Console output -/

theorem not_isSome_eq_none {o : Option Nat} (h : ¬ o.isSome = true) : o = none := by
  cases o with
  | none => rfl
  | some m => exact absurd rfl h

theorem okAfter_ne_warnAfter (l f k f' : List Char) : okAfter l f ≠ warnAfter k f' := by
  intro h
  have h2 : (okAfter l f)[2]? = (warnAfter k f')[2]? := by rw [h]
  rw [okAfter, warnAfter] at h2
  simp only [List.append_assoc] at h2
  rw [List.getElem?_append_left
      (show (2 : Nat) < ("  Instrumented ".data).length by decide),
    List.getElem?_append_left
      (show (2 : Nat) < ("  WARNING: \x27".data).length by decide)] at h2
  exact absurd h2 (by decide)

theorem okBefore_ne_warnBefore (l f k f' : List Char) : okBefore l f ≠ warnBefore k f' := by
  intro h
  have h2 : (okBefore l f)[2]? = (warnBefore k f')[2]? := by rw [h]
  rw [okBefore, warnBefore] at h2
  simp only [List.append_assoc] at h2
  rw [List.getElem?_append_left
      (show (2 : Nat) < ("  Instrumented ".data).length by decide),
    List.getElem?_append_left
      (show (2 : Nat) < ("  WARNING before: \x27".data).length by decide)] at h2
  exact absurd h2 (by decide)

theorem add_trace_printed_spec (f k l C : List Char) :
    ((add_trace f k l C).printed.length ≤ 1) ∧
    ((add_trace f k l C).printed = [okAfter l f] ↔ (add_trace f k l C).wrote = true) ∧
    ((add_trace f k l C).printed = [warnAfter k f] ↔
      (findSub (trace_line_after l) C = none ∧ findSub k C = none)) := by
  simp only [add_trace]
  split
  · rename_i h0
    refine ⟨by simp, by simp, ?_⟩
    constructor
    · intro h; exact List.noConfusion h
    · rintro ⟨h1, -⟩
      rw [h1] at h0
      simp at h0
  · rename_i h0
    split
    · rename_i hk
      refine ⟨by simp, ?_, ?_⟩
      · constructor
        · intro h
          exact absurd (List.cons.inj h).1 (Ne.symm (okAfter_ne_warnAfter l f k f))
        · intro h; exact Bool.noConfusion h
      · constructor
        · intro _; exact ⟨not_isSome_eq_none h0, hk⟩
        · intro _; rfl
    · rename_i i hk
      split
      · refine ⟨by simp, by simp, ?_⟩
        constructor
        · intro h; exact List.noConfusion h
        · rintro ⟨-, h2⟩
          rw [hk] at h2
          exact Option.noConfusion h2
      · split
        · refine ⟨by simp, by simp, ?_⟩
          constructor
          · intro h; exact List.noConfusion h
          · rintro ⟨-, h2⟩
            rw [hk] at h2
            exact Option.noConfusion h2
        · refine ⟨by simp, by simp, ?_⟩
          constructor
          · intro h
            exact absurd (List.cons.inj h).1 (okAfter_ne_warnAfter l f k f)
          · rintro ⟨-, h2⟩
            rw [hk] at h2
            exact Option.noConfusion h2

theorem add_trace_before_printed_spec (f k l C : List Char) :
    ((add_trace_before f k l C).printed.length ≤ 1) ∧
    ((add_trace_before f k l C).printed = [okBefore l f] ↔
      (add_trace_before f k l C).wrote = true) ∧
    ((add_trace_before f k l C).printed = [warnBefore k f] ↔
      (findSub (trace_line_before l) C = none ∧ findSub k C = none)) := by
  simp only [add_trace_before]
  split
  · rename_i h0
    refine ⟨by simp, by simp, ?_⟩
    constructor
    · intro h; exact List.noConfusion h
    · rintro ⟨h1, -⟩
      rw [h1] at h0
      simp at h0
  · rename_i h0
    split
    · rename_i hk
      refine ⟨by simp, ?_, ?_⟩
      · constructor
        · intro h
          exact absurd (List.cons.inj h).1 (Ne.symm (okBefore_ne_warnBefore l f k f))
        · intro h; exact Bool.noConfusion h
      · constructor
        · intro _; exact ⟨not_isSome_eq_none h0, hk⟩
        · intro _; rfl
    · rename_i i hk
      refine ⟨by simp, by simp, ?_⟩
      constructor
      · intro h
        exact absurd (List.cons.inj h).1 (okBefore_ne_warnBefore l f k f)
      · rintro ⟨-, h2⟩
        rw [hk] at h2
        exact Option.noConfusion h2

theorem add_trace_printed_mem (f k l C : List Char) :
    (add_trace f k l C).printed = [] ∨
      (add_trace f k l C).printed = [okAfter l f] ∨
      (add_trace f k l C).printed = [warnAfter k f] := by
  simp only [add_trace]
  split
  · exact Or.inl rfl
  · split
    · exact Or.inr (Or.inr rfl)
    · split
      · exact Or.inl rfl
      · split
        · exact Or.inl rfl
        · exact Or.inr (Or.inl rfl)

theorem add_trace_before_printed_mem (f k l C : List Char) :
    (add_trace_before f k l C).printed = [] ∨
      (add_trace_before f k l C).printed = [okBefore l f] ∨
      (add_trace_before f k l C).printed = [warnBefore k f] := by
  simp only [add_trace_before]
  split
  · exact Or.inl rfl
  · split
    · exact Or.inr (Or.inr rfl)
    · exact Or.inr (Or.inl rfl)

theorem add_trace_silent_on_partial_failure (f k l C : List Char) (idx : Nat)
    (hk : findSub k C = some idx)
    (hfail : findFrom ['\x7b'] C idx = none ∨
      ∀ b, findFrom ['\x7b'] C idx = some b → findFrom ['\n'] C b = none) :
    (add_trace f k l C).printed = [] ∧ (add_trace f k l C).wrote = false ∧
      (add_trace f k l C).content = C := by
  simp only [add_trace]
  split
  · exact ⟨rfl, rfl, rfl⟩
  · split
    · rename_i hk2
      rw [hk2] at hk
      exact Option.noConfusion hk
    · rename_i idx2 hk2
      rw [hk2] at hk
      obtain rfl : idx2 = idx := Option.some.inj hk
      split
      · exact ⟨rfl, rfl, rfl⟩
      · rename_i b hb
        rcases hfail with hnone | hnl
        · rw [hnone] at hb
          exact Option.noConfusion hb
        · split
          · exact ⟨rfl, rfl, rfl⟩
          · rename_i n hn
            rw [hnl b hb] at hn
            exact Option.noConfusion hn

/-- C7 (amended): each request emits at most one console line, never
more, and the line is always the success line or the warning line:
the success line (naming the label and file) is emitted exactly when a
write occurs, and the warning line (naming the truncated locate key and
file) is emitted exactly when both the trace statement and the locate key
are absent from the content; in the remaining cases — trace already
present, or, in AfterSignatureBrace mode, no brace or no following
newline after the match — no line at all is emitted. -/
theorem C7_console_output (R : Request) (C : List Char) :
    ((applyReq R C).printed.length ≤ 1) ∧
    ((applyReq R C).printed = [] ∨ (applyReq R C).printed = [okMsgOf R] ∨
      (applyReq R C).printed = [warnMsgOf R]) ∧
    ((applyReq R C).printed = [okMsgOf R] ↔ (applyReq R C).wrote = true) ∧
    ((applyReq R C).printed = [warnMsgOf R] ↔
      ((∀ i, ¬ traceOf R <+: C.drop i) ∧ (∀ i, ¬ R.locate_key <+: C.drop i))) ∧
    ((∃ i, traceOf R <+: C.drop i) →
      (applyReq R C).printed = [] ∧ (applyReq R C).wrote = false) ∧
    (∀ idx, R.mode = Mode.afterSignatureBrace →
      findSub R.locate_key C = some idx →
      (findFrom ['\x7b'] C idx = none ∨
        ∀ b, findFrom ['\x7b'] C idx = some b → findFrom ['\n'] C b = none) →
      (applyReq R C).printed = [] ∧ (applyReq R C).wrote = false) := by
  have hpresent : (∃ i, traceOf R <+: C.drop i) →
      (applyReq R C).printed = [] ∧ (applyReq R C).wrote = false := by
    rintro ⟨i, hp⟩
    rw [applyReq_of_contains (findSub_isSome_of_prefix_drop hp)]
    exact ⟨rfl, rfl⟩
  cases R with
  | mk path key label mode =>
    cases mode with
    | afterSignatureBrace =>
      have h := add_trace_printed_spec path key label C
      have h3 := h.2.2
      rw [findSub_eq_none_iff, findSub_eq_none_iff] at h3
      refine ⟨h.1, add_trace_printed_mem path key label C, h.2.1, h3, hpresent, ?_⟩
      intro idx hmode hk hfail
      have hs := add_trace_silent_on_partial_failure path key label C idx hk hfail
      exact ⟨hs.1, hs.2.1⟩
    | beforeLine =>
      have h := add_trace_before_printed_spec path key label C
      have h3 := h.2.2
      rw [findSub_eq_none_iff, findSub_eq_none_iff] at h3
      refine ⟨h.1, add_trace_before_printed_mem path key label C, h.2.1, h3,
        hpresent, ?_⟩
      intro idx hmode
      exact Mode.noConfusion hmode

/-- C7 as stated is false: a request whose trace statement is already
present in the content emits zero console lines, not one. -/
theorem C7_counterexample :
    ¬ ((applyReq ⟨"f.cpp".data, "zzz".data, ['X'], Mode.beforeLine⟩
        (trace_line_before ['X'])).printed.length = 1) := by
  decide

/-! ## Occurrence counting -/

theorem trace_line_before_eq_after (label : List Char) :
    trace_line_before label = trace_line_after label := rfl

theorem occCount_nil (sub : List Char) :
    occCount sub [] = if sub.isPrefixOf [] then 1 else 0 := rfl

theorem occCount_cons (sub : List Char) (c : Char) (t : List Char) :
    occCount sub (c :: t) =
      (if sub.isPrefixOf (c :: t) then 1 else 0) + occCount sub t := rfl

theorem occCount_eq_zero {sub s : List Char}
    (h : ∀ i, ¬ sub <+: s.drop i) : occCount sub s = 0 := by
  induction s with
  | nil =>
    rw [occCount_nil, if_neg]
    intro hp
    exact h 0 (by simpa using isPrefixOf_iff.mp hp)
  | cons c t ih =>
    have h0 : ¬ sub.isPrefixOf (c :: t) = true :=
      fun hp => h 0 (by simpa using isPrefixOf_iff.mp hp)
    have ht : ∀ i, ¬ sub <+: t.drop i := fun i => by simpa using h (i + 1)
    rw [occCount_cons, if_neg h0, ih ht]

theorem occCount_eq_one_of_unique {sub s : List Char} {p : Nat}
    (hp : p ≤ s.length) (h : ∀ q, sub <+: s.drop q ↔ q = p) :
    occCount sub s = 1 := by
  induction s generalizing p with
  | nil =>
    have hp0 : p = 0 := by simpa using hp
    subst hp0
    rw [occCount_nil, if_pos (isPrefixOf_iff.mpr (by simpa using (h 0).mpr rfl))]
  | cons c t ih =>
    cases p with
    | zero =>
      have hpre : sub.isPrefixOf (c :: t) = true :=
        isPrefixOf_iff.mpr (by simpa using (h 0).mpr rfl)
      rw [occCount_cons, if_pos hpre,
        occCount_eq_zero (fun q hq => by
          have := (h (q + 1)).mp (by simpa using hq)
          omega)]
    | succ p' =>
      have h0 : ¬ sub.isPrefixOf (c :: t) = true := by
        intro hpre
        have := (h 0).mp (by simpa using isPrefixOf_iff.mp hpre)
        omega
      rw [occCount_cons, if_neg h0, ih (by simpa using hp) (fun q => by
        have := h (q + 1)
        simpa using this)]

/-! ## Splice positions -/

theorem spliced_getElem_left {A T B : List Char} {m : Nat} (h : m < A.length) :
    (A ++ T ++ B)[m]? = A[m]? := by
  rw [List.getElem?_append_left (by simp only [List.length_append]; omega),
    List.getElem?_append_left h]

theorem spliced_getElem_mid {A T B : List Char} {m : Nat} (h1 : A.length ≤ m)
    (h2 : m < A.length + T.length) :
    (A ++ T ++ B)[m]? = T[m - A.length]? := by
  rw [List.getElem?_append_left (by simp only [List.length_append]; omega),
    List.getElem?_append_right h1]

theorem spliced_getElem_right {A T B : List Char} {m : Nat}
    (h : A.length + T.length ≤ m) :
    (A ++ T ++ B)[m]? = B[m - A.length - T.length]? := by
  have e : m - (A ++ T).length = m - A.length - T.length := by
    simp only [List.length_append]
    omega
  rw [List.getElem?_append_right (by simp only [List.length_append]; omega), e]

/-! ## The trace line has no nontrivial border -/

theorem trace_line_after_eq_concat (label : List Char) :
    trace_line_after label =
      ("    fprintf(stderr, \">>> ".data ++ label ++ "\\n\");".data) ++ ['\n'] := by
  unfold trace_line_after
  have e : "\\n\");\n".data = "\\n\");".data ++ ['\n'] := by decide
  rw [e, ← List.append_assoc]

theorem trace_newline_unique {label : List Char} (hl : '\n' ∉ label) {k : Nat} :
    (trace_line_after label)[k]? = some '\n' ↔
      k = (trace_line_after label).length - 1 := by
  have hM : '\n' ∉ ("    fprintf(stderr, \">>> ".data ++ label ++ "\\n\");".data) := by
    intro hmem
    rcases List.mem_append.mp hmem with h1 | h2
    · rcases List.mem_append.mp h1 with ha | hb
      · exact absurd ha (by decide)
      · exact hl hb
    · exact absurd h2 (by decide)
  rw [trace_line_after_eq_concat]
  have hlen : (("    fprintf(stderr, \">>> ".data ++ label ++ "\\n\");".data)
        ++ ['\n']).length =
      ("    fprintf(stderr, \">>> ".data ++ label ++ "\\n\");".data).length + 1 := by
    rw [List.length_append]
    rfl
  constructor
  · intro h
    by_cases hk : k < ("    fprintf(stderr, \">>> ".data ++ label ++ "\\n\");".data).length
    · rw [List.getElem?_append_left hk] at h
      exact absurd (List.getElem?_mem h) hM
    · by_cases hk2 :
        k < ("    fprintf(stderr, \">>> ".data ++ label ++ "\\n\");".data).length + 1
      · rw [hlen]
        omega
      · rw [List.getElem?_eq_none (by rw [hlen]; omega)] at h
        exact Option.noConfusion h
  · intro h
    rw [hlen] at h
    have hk : k =
        ("    fprintf(stderr, \">>> ".data ++ label ++ "\\n\");".data).length := by
      omega
    subst hk
    rw [List.getElem?_append_right (le_refl _)]
    simp

theorem trace_no_period {label : List Char} (hl : '\n' ∉ label) {d : Nat}
    (hd : 0 < d) (hdn : d < (trace_line_after label).length)
    (hper : ∀ k, k < (trace_line_after label).length - d →
      (trace_line_after label)[k]? = (trace_line_after label)[k + d]?) : False := by
  have hn1 : (trace_line_after label)[(trace_line_after label).length - 1]? = some '\n' :=
    (trace_newline_unique hl).mpr rfl
  have h1 := hper ((trace_line_after label).length - 1 - d) (by omega)
  have e : (trace_line_after label).length - 1 - d + d =
      (trace_line_after label).length - 1 := by
    omega
  rw [e, hn1] at h1
  have := (trace_newline_unique hl).mp h1
  omega

theorem prefix_spliced_iff {label A B : List Char} (hl : '\n' ∉ label)
    (hno : ∀ q, ¬ trace_line_after label <+: (A ++ B).drop q) (q : Nat) :
    trace_line_after label <+: (A ++ trace_line_after label ++ B).drop q ↔
      q = A.length := by
  constructor
  · intro h
    rw [prefix_drop_iff_getElem] at h
    by_contra hne
    rcases Nat.lt_or_ge q A.length with hq | hq
    · rcases Nat.lt_or_ge A.length (q + (trace_line_after label).length) with hc | hc
      · have hd : 0 < A.length - q := by omega
        have hdn : A.length - q < (trace_line_after label).length := by omega
        apply trace_no_period hl hd hdn
        intro k hk
        have hmid : (A ++ trace_line_after label ++ B)[A.length + k]? =
            (trace_line_after label)[k]? := by
          rw [spliced_getElem_mid (by omega) (by omega)]
          have e : A.length + k - A.length = k := by omega
          rw [e]
        have h2 := h (k + (A.length - q)) (by omega)
        have e2 : q + (k + (A.length - q)) = A.length + k := by omega
        rw [e2, hmid] at h2
        exact h2
      · apply hno q
        rw [prefix_drop_iff_getElem]
        intro k hk
        have hs := h k hk
        rw [spliced_getElem_left (by omega)] at hs
        rw [List.getElem?_append_left (by omega)]
        exact hs
    · have hqp : A.length < q := by omega
      rcases Nat.lt_or_ge q (A.length + (trace_line_after label).length) with hc | hc
      · have hd : 0 < q - A.length := by omega
        have hdn : q - A.length < (trace_line_after label).length := by omega
        apply trace_no_period hl hd hdn
        intro k hk
        have h2 := h k (by omega)
        rw [spliced_getElem_mid (by omega) (by omega)] at h2
        have e2 : q + k - A.length = k + (q - A.length) := by omega
        rw [e2] at h2
        exact h2.symm
      · apply hno (q - (trace_line_after label).length)
        rw [prefix_drop_iff_getElem]
        intro k hk
        have hs := h k hk
        rw [spliced_getElem_right (by omega)] at hs
        rw [List.getElem?_append_right (by omega)]
        have e : q - (trace_line_after label).length + k - A.length =
            q + k - A.length - (trace_line_after label).length := by
          omega
        rw [e]
        exact hs
  · intro h
    subst h
    rw [List.append_assoc, List.drop_left]
    exact List.prefix_append _ _

/-- C6 (amended): for every request whose label is newline-free and every
content containing at most one occurrence of the exact trace statement
for the request's label, the content resulting from processing the
request still contains at most one occurrence of that trace statement. -/
theorem C6_at_most_one_trace (R : Request) (C : List Char)
    (hocc : occCount (traceOf R) C ≤ 1) (hl : '\n' ∉ R.label) :
    occCount (traceOf R) ((applyReq R C).content) ≤ 1 := by
  have htr : traceOf R = trace_line_after R.label := by
    cases hm : R.mode <;> simp [traceOf, hm, trace_line_before_eq_after]
  cases hf : findSub (traceOf R) C with
  | some m =>
    rw [applyReq_of_contains (by simp [hf])]
    exact hocc
  | none =>
    have hno : ∀ q, ¬ traceOf R <+: C.drop q := findSub_eq_none_iff.mp hf
    rcases applyReq_cases R C with ⟨h1, -⟩ | ⟨p, hp, hc, -⟩
    · rw [h1]
      exact hocc
    · rw [hc, htr]
      have hno' : ∀ q,
          ¬ trace_line_after R.label <+: (C.take p ++ C.drop p).drop q := by
        intro q
        rw [List.take_append_drop, ← htr]
        exact hno q
      have hone : occCount (trace_line_after R.label)
          (C.take p ++ trace_line_after R.label ++ C.drop p) = 1 := by
        apply occCount_eq_one_of_unique (p := (C.take p).length)
        · simp only [List.length_append]
          omega
        · exact prefix_spliced_iff hl hno'
      exact le_of_eq hone

/-- C6 as stated is false: a content that already holds two copies of the
trace statement is returned unchanged, still holding two copies. -/
theorem C6_counterexample :
    ¬ (occCount (traceOf ⟨"f".data, "k".data, ['X'], Mode.afterSignatureBrace⟩)
        ((applyReq ⟨"f".data, "k".data, ['X'], Mode.afterSignatureBrace⟩
          (trace_line_after ['X'] ++ trace_line_after ['X'])).content) ≤ 1) := by
  decide

theorem C6_at_most_one_trace_witness :
    (occCount (traceOf exampleReq) exampleC ≤ 1 ∧ '\n' ∉ exampleReq.label) ∧
    occCount (traceOf exampleReq) ((applyReq exampleReq exampleC).content) ≤ 1 :=
  ⟨⟨by decide, by decide⟩, C6_at_most_one_trace _ _ (by decide) (by decide)⟩
